import Mathlib

/-! Shallow embedding of the character-level GPT training script
(src/gpt-llm.py).  Machine floats are modelled by rationals together with
abstract transcendental primitives (exp, sqrt) supplied by the backend;
tensors are total functions out of Fin; Python runtime failures (index
errors, KeyError, torch runtime errors) are modelled by Option/Except. -/

namespace GPT

/-- Training/evaluation flag of the module tree (model.train() / model.eval()). -/
inductive Mode
  | train
  | eval
deriving DecidableEq

/-- Abstract numeric primitives of the floating-point backend: exp drives
softmax, sqrt drives the attention scale and layer normalization. -/
structure RealOps where
  exp : ℚ → ℚ
  sqrt : ℚ → ℚ

/-! ### Vocabulary (src lines 24-34) -/

/-- chars = sorted(list(set(text))): the distinct characters of the corpus
in increasing code-point order. -/
def chars (text : List Char) : List Char :=
  text.toFinset.sort (· ≤ ·)

/-- vocab_size = len(chars). -/
def vocabSize (text : List Char) : ℕ := (chars text).length

/-- stoi dictionary lookup: char to its index in chars; a missing key raises
KeyError, modelled by none. -/
def stoi (text : List Char) (c : Char) : Option ℕ :=
  if c ∈ chars text then some ((chars text).indexOf c) else none

/-- itos dictionary lookup: id to char; a key outside 0..vocab_size-1 raises. -/
def itos (text : List Char) (i : ℕ) : Option Char :=
  (chars text).get? i

/-- encode = lambda s: [stoi[c] for c in s]. -/
def encode (text : List Char) (s : List Char) : Option (List ℕ) :=
  s.mapM (stoi text)

/-- decode = lambda l: join([itos[i] for i in l]). -/
def decode (text : List Char) (l : List ℕ) : Option (List Char) :=
  l.mapM (itos text)

/-! ### Batch sampling (src lines 44-50) -/

/-- torch.randint(high, ...) draws uniformly from [0, high) and raises when
high is not positive.  The randomness source is an arbitrary natural seed,
reduced mod high, so the support of the draw is exactly [0, high). -/
def randint (high : ℕ) (seed : ℕ) : Option ℕ :=
  if 0 < high then some (seed % high) else none

/-- Start offset of one batch row: ix = torch.randint(len(data) - block_size, ...). -/
def batchOffset (blockSize : ℕ) (data : List ℕ) (seed : ℕ) : Option ℕ :=
  randint (data.length - blockSize) seed

/-- get_batch, one call on one split.  The guard is exactly the success
condition of torch.randint(len(data) - block_size, (batch_size, 1)); row b of
x is data[ix_b : ix_b + block_size] and row b of y is
data[ix_b + 1 : ix_b + block_size + 1], with ix_b the uniform draw from
[0, len(data) - block_size). -/
def getBatch (blockSize batchSize : ℕ) (data : List ℕ) (seeds : Fin batchSize → ℕ) :
    Option ((Fin batchSize → Fin blockSize → ℕ) × (Fin batchSize → Fin blockSize → ℕ)) :=
  if 0 < data.length - blockSize then
    some (fun b j => data.getD (seeds b % (data.length - blockSize) + j) 0,
          fun b j => data.getD (seeds b % (data.length - blockSize) + j + 1) 0)
  else none

/-- Support of the start-offset draw actually performed by get_batch. -/
def offsetSupport (blockSize : ℕ) (data : List ℕ) : Finset ℕ :=
  Finset.range (data.length - blockSize)

/-- Offset range asserted by the spec sentence, written from the spec words
for comparison with offsetSupport: valid positions 0 .. len(split) -
context_length inclusive. -/
def specClaimedOffsets (blockSize : ℕ) (data : List ℕ) : Finset ℕ :=
  Finset.range (data.length - blockSize + 1)

/-! ### Training loop (src lines 207-221) -/

/-- Observable actions of the training loop, recorded for the cadence claim:
an evaluation report (estimate_loss + print) and a parameter update
(zero_grad + backward + optimizer.step). -/
inductive TrainEvent
  | evalReport (iter : ℕ)
  | update (iter : ℕ)
deriving DecidableEq

/-- State threaded through the training loop: the model parameters and the
log of performed actions. -/
structure LoopState (P : Type) where
  params : P
  events : List TrainEvent

/-- Body of one training iteration.  In the source every statement of the
body, including get_batch, the forward pass and the optimizer step, is
indented under the periodic-evaluation guard if iter % eval_interval == 0,
so nothing at all happens on the other iterations. -/
def trainIter {P : Type} (evalInterval : ℕ) (optStep : ℕ → P → P) (i : ℕ)
    (s : LoopState P) : LoopState P :=
  if i % evalInterval = 0 then
    { params := optStep i s.params
      events := s.events ++ [TrainEvent.evalReport i, TrainEvent.update i] }
  else s

/-- for iter in range(max_iters): the whole training loop. -/
def trainLoop {P : Type} (evalInterval : ℕ) (optStep : ℕ → P → P) (maxIters : ℕ)
    (p0 : P) : LoopState P :=
  (List.range maxIters).foldl (fun s i => trainIter evalInterval optStep i s) ⟨p0, []⟩

/-! ### Loss estimator (src lines 53-66) -/

/-- The two corpus splits iterated over by estimate_loss. -/
inductive Split
  | train
  | val
deriving DecidableEq

/-- losses.mean() on a tensor holding the recorded losses. -/
def meanQ (l : List ℚ) : ℚ := l.sum / l.length

/-- Inner loop of estimate_loss for one split: eval_iters losses, each the
result of one get_batch plus one forward pass (abstracted as lossOf, which
may fail); the first failure aborts the loop. -/
def splitLosses (lossOf : ℕ → Except Unit ℚ) (evalIters : ℕ) : Except Unit (List ℚ) :=
  (List.range evalIters).mapM lossOf

/-- estimate_loss.  The model mode is threaded explicitly: m.eval() sets it
to eval unconditionally (the incoming mode m0 is overwritten, not saved),
the two splits are processed in order, and m.train() runs only after both
split loops complete; a failure in any batch draw or forward pass propagates
with the mode left as it then is (eval). -/
def estimateLoss (lossOf : Split → ℕ → Except Unit ℚ) (evalIters : ℕ) (m0 : Mode) :
    Except Unit (ℚ × ℚ) × Mode :=
  let _ := m0
  match splitLosses (lossOf Split.train) evalIters with
  | Except.error e => (Except.error e, Mode.eval)
  | Except.ok ltrain =>
    match splitLosses (lossOf Split.val) evalIters with
    | Except.error e => (Except.error e, Mode.eval)
    | Except.ok lval => (Except.ok (meanQ ltrain, meanQ lval), Mode.train)

/-! ### Linear and normalization primitives -/

/-- nn.Linear without bias. -/
def linNoBias {m n : ℕ} (W : Fin m → Fin n → ℚ) (x : Fin n → ℚ) : Fin m → ℚ :=
  fun o => ∑ i, W o i * x i

/-- nn.Linear with bias. -/
def linWithBias {m n : ℕ} (W : Fin m → Fin n → ℚ) (b : Fin m → ℚ) (x : Fin n → ℚ) :
    Fin m → ℚ :=
  fun o => (∑ i, W o i * x i) + b o

/-- Default eps of nn.LayerNorm. -/
def lnEps : ℚ := 1 / 100000

/-- nn.LayerNorm over the last axis with learned gain g and bias b: biased
mean and variance of the vector, then an affine map per coordinate. -/
def layerNorm {n : ℕ} (ops : RealOps) (g b : Fin n → ℚ) (x : Fin n → ℚ) : Fin n → ℚ :=
  let mu : ℚ := (∑ i, x i) / n
  let vr : ℚ := (∑ i, (x i - mu) ^ 2) / n
  fun i => g i * ((x i - mu) / ops.sqrt (vr + lnEps)) + b i

/-- nn.Dropout on a (T, n) tensor: in train mode each kept entry is scaled
by 1/(1-rate) and each dropped entry becomes 0 (the Bernoulli draw is the
abstract mask); in eval mode dropout is the identity. -/
def dropoutApply {T n : ℕ} (mode : Mode) (rate : ℚ) (mask : ℕ → ℕ → Bool)
    (x : Fin T → Fin n → ℚ) : Fin T → Fin n → ℚ :=
  match mode with
  | Mode.eval => x
  | Mode.train => fun i j => if mask i j then x i j / (1 - rate) else 0

/-! ### Self-attention head (src lines 68-93) -/

/-- Result of wei.masked_fill(tril[:T,:T] == 0, -inf): entries strictly
above the diagonal become -inf, encoded by none.  The slice tril[:T,:T]
is the lower-triangular indicator exactly when T ≤ block_size; the checked
forward pass enforces that bound and free-standing head theorems carry it
as a hypothesis. -/
def maskedScores {T : ℕ} (w : Fin T → Fin T → ℚ) (i j : Fin T) : Option ℚ :=
  if (j : ℕ) ≤ (i : ℕ) then some (w i j) else none

/-- exp extended to a masked score: float exp(-inf) = 0. -/
def expv (e : ℚ → ℚ) : Option ℚ → ℚ
  | none => 0
  | some x => e x

/-- F.softmax(wei, dim=-1) after the causal mask fill: row i is the softmax
over positions 0..i and exactly 0 above the diagonal. -/
def attnWeights {T : ℕ} (e : ℚ → ℚ) (w : Fin T → Fin T → ℚ) : Fin T → Fin T → ℚ :=
  fun i j => expv e (maskedScores w i j) / ∑ k, expv e (maskedScores w i k)

/-- F.softmax along the last axis with no mask (applied to the final-step
logits during generation). -/
def softmaxRow {n : ℕ} (e : ℚ → ℚ) (r : Fin n → ℚ) : Fin n → ℚ :=
  fun j => e (r j) / ∑ k, e (r k)

/-- Parameters of one self-attention head: three bias-free projections. -/
structure HeadP (nEmbd hs : ℕ) where
  key : Fin hs → Fin nEmbd → ℚ
  query : Fin hs → Fin nEmbd → ℚ
  value : Fin hs → Fin nEmbd → ℚ

/-- Raw affinity scores wei = q @ k.transpose(-2,-1) * C ** (-0.5); the
scale uses the full input width C = n_embd, not head_size, as in the
source. -/
def headScores {T nEmbd hs : ℕ} (ops : RealOps) (hp : HeadP nEmbd hs)
    (x : Fin T → Fin nEmbd → ℚ) : Fin T → Fin T → ℚ :=
  fun i j => (∑ a, linNoBias hp.query (x i) a * linNoBias hp.key (x j) a) *
    (ops.sqrt (nEmbd : ℚ))⁻¹

/-- Head.forward.  After the masked softmax the source evaluates
wei - self.dropout(wei) as a bare expression statement (line 89) and
discards the result, so the weighted aggregation uses the raw softmax
weights wei whatever the mode and dropout mask. -/
def headForward {T nEmbd hs : ℕ} (ops : RealOps) (mode : Mode) (rate : ℚ)
    (mask : ℕ → ℕ → Bool) (hp : HeadP nEmbd hs) (x : Fin T → Fin nEmbd → ℚ) :
    Fin T → Fin hs → ℚ :=
  let wei := attnWeights ops.exp (headScores ops hp x)
  let _discarded := fun i j => wei i j - dropoutApply mode rate mask wei i j
  fun i a => ∑ j, wei i j * linNoBias hp.value (x j) a

/-! ### Multi-head attention (src lines 95-108) -/

/-- torch.cat of the head outputs along the feature axis: feature j of the
concatenation is coordinate j % hs of head number j / hs. -/
def concatHeads {T nHeads hs : ℕ} (outs : Fin nHeads → Fin T → Fin hs → ℚ) :
    Fin T → Fin (nHeads * hs) → ℚ :=
  fun i j =>
    have hhs : 0 < hs := by
      rcases Nat.eq_zero_or_pos hs with h0 | h
      · exact absurd j.isLt (by simp [h0])
      · exact h
    outs ⟨(j : ℕ) / hs, (Nat.div_lt_iff_lt_mul hhs).2 j.isLt⟩ i
      ⟨(j : ℕ) % hs, Nat.mod_lt _ hhs⟩

/-- Parameters of MultiHeadAttention: num_heads heads, then a Linear
projection (with bias) back to n_embd width. -/
structure MHAP (nEmbd nHeads hs : ℕ) where
  heads : Fin nHeads → HeadP nEmbd hs
  projW : Fin nEmbd → Fin (nHeads * hs) → ℚ
  projB : Fin nEmbd → ℚ

/-- MultiHeadAttention.forward: concatenate the head outputs, project, then
dropout. -/
def mhaForward {T nEmbd nHeads hs : ℕ} (ops : RealOps) (mode : Mode) (rate : ℚ)
    (headMask : ℕ → ℕ → ℕ → Bool) (projMask : ℕ → ℕ → Bool)
    (mp : MHAP nEmbd nHeads hs) (x : Fin T → Fin nEmbd → ℚ) :
    Fin T → Fin nEmbd → ℚ :=
  let cat := concatHeads (fun h => headForward ops mode rate (headMask h) (mp.heads h) x)
  dropoutApply mode rate projMask (fun i => linWithBias mp.projW mp.projB (cat i))

/-! ### Feed-forward block (src lines 110-123) -/

/-- Parameters of FeedForward: expand to 4 * n_embd, ReLU, project back. -/
structure FFP (nEmbd : ℕ) where
  w1 : Fin (4 * nEmbd) → Fin nEmbd → ℚ
  b1 : Fin (4 * nEmbd) → ℚ
  w2 : Fin nEmbd → Fin (4 * nEmbd) → ℚ
  b2 : Fin nEmbd → ℚ

/-- FeedForward.forward: Linear, ReLU, Linear, Dropout, position-wise. -/
def ffForward {T nEmbd : ℕ} (mode : Mode) (rate : ℚ) (mask : ℕ → ℕ → Bool)
    (fp : FFP nEmbd) (x : Fin T → Fin nEmbd → ℚ) : Fin T → Fin nEmbd → ℚ :=
  dropoutApply mode rate mask
    (fun i => linWithBias fp.w2 fp.b2 (fun h => max 0 (linWithBias fp.w1 fp.b1 (x i) h)))

/-! ### Transformer block (src lines 125-140) -/

/-- Parameters of one Transformer Block. -/
structure BlockP (nEmbd nHeads hs : ℕ) where
  sa : MHAP nEmbd nHeads hs
  ffwd : FFP nEmbd
  ln1g : Fin nEmbd → ℚ
  ln1b : Fin nEmbd → ℚ
  ln2g : Fin nEmbd → ℚ
  ln2b : Fin nEmbd → ℚ

/-- Dropout masks consumed by one Block during one forward call: one mask
per head, one for the attention projection, one for the feed-forward. -/
structure BlockMasks where
  headM : ℕ → ℕ → ℕ → Bool
  projM : ℕ → ℕ → Bool
  ffM : ℕ → ℕ → Bool

/-- Block.forward: x = x + sa(ln1(x)); x = x + ffwd(ln2(x)). -/
def blockForward {T nEmbd nHeads hs : ℕ} (ops : RealOps) (mode : Mode) (rate : ℚ)
    (bm : BlockMasks) (bp : BlockP nEmbd nHeads hs) (x : Fin T → Fin nEmbd → ℚ) :
    Fin T → Fin nEmbd → ℚ :=
  let x1 := fun i => x i + mhaForward ops mode rate bm.headM bm.projM bp.sa
    (fun j => layerNorm ops bp.ln1g bp.ln1b (x j)) i
  fun i => x1 i + ffForward mode rate bm.ffM bp.ffwd
    (fun j => layerNorm ops bp.ln2g bp.ln2b (x1 j)) i

/-! ### Language model (src lines 143-195) -/

/-- Parameters of BigramLanguageModel: token and positional embedding
tables, n_layer blocks, the final layer norm, and the lm_head projection. -/
structure ModelP (V nEmbd nHeads hs blockSize nLayer : ℕ) where
  tokEmb : Fin V → Fin nEmbd → ℚ
  posEmb : Fin blockSize → Fin nEmbd → ℚ
  blocks : Fin nLayer → BlockP nEmbd nHeads hs
  lnfG : Fin nEmbd → ℚ
  lnfB : Fin nEmbd → ℚ
  lmW : Fin V → Fin nEmbd → ℚ
  lmB : Fin V → ℚ

/-- Logits of BigramLanguageModel.forward on one batch row whose length
fits the positional table (T ≤ block_size): token embedding plus positional
embedding, the block stack in order, the final layer norm, and the lm_head
projection.  The masks argument supplies the dropout randomness of each
block for this call. -/
def logitsCore {V nEmbd nHeads hs blockSize nLayer T : ℕ} (ops : RealOps)
    (mode : Mode) (rate : ℚ) (masks : ℕ → BlockMasks)
    (p : ModelP V nEmbd nHeads hs blockSize nLayer) (hT : T ≤ blockSize)
    (idx : Fin T → Fin V) : Fin T → Fin V → ℚ :=
  let x0 : Fin T → Fin nEmbd → ℚ :=
    fun i => p.tokEmb (idx i) + p.posEmb ⟨(i : ℕ), lt_of_lt_of_le i.isLt hT⟩
  let xN := (List.finRange nLayer).foldl
    (fun acc l => blockForward ops mode rate (masks l.val) (p.blocks l) acc) x0
  fun i => linWithBias p.lmW p.lmB (layerNorm ops p.lnfG p.lnfB (xN i))

/-- Batched logits on a (B, T) index tensor with every id in range: the
batched tensor operations act independently on each batch row. -/
def logitsBatch {B V nEmbd nHeads hs blockSize nLayer T : ℕ} (ops : RealOps)
    (mode : Mode) (rate : ℚ) (masks : ℕ → BlockMasks)
    (p : ModelP V nEmbd nHeads hs blockSize nLayer) (hT : T ≤ blockSize)
    (idxB : Fin B → Fin T → Fin V) : Fin B → Fin T → Fin V → ℚ :=
  fun b => logitsCore ops mode rate masks p hT (idxB b)

/-- BigramLanguageModel.forward on a (B, T) tensor of raw integer ids, no
targets.  nn.Embedding raises on a token id outside [0, vocab_size); the
positional lookup on torch.arange(T) raises as soon as T exceeds
block_size, before any logits exist.  Both failures are modelled by none;
on success the logits have shape (B, T, vocab_size) by construction. -/
def forwardBT {B T V nEmbd nHeads hs blockSize nLayer : ℕ} (ops : RealOps)
    (mode : Mode) (rate : ℚ) (masks : ℕ → BlockMasks)
    (p : ModelP V nEmbd nHeads hs blockSize nLayer) (idxB : Fin B → Fin T → ℕ) :
    Option (Fin B → Fin T → Fin V → ℚ) :=
  if hv : ∀ b i, idxB b i < V then
    if hT : T ≤ blockSize then
      some (logitsBatch ops mode rate masks p hT (fun b i => ⟨idxB b i, hv b i⟩))
    else none
  else none

/-- BigramLanguageModel.forward on one batch row given as a raw token list,
no targets (the shape used inside generate, where the row length changes
every step). -/
def forwardRow {V nEmbd nHeads hs blockSize nLayer : ℕ} (ops : RealOps)
    (mode : Mode) (rate : ℚ) (masks : ℕ → BlockMasks)
    (p : ModelP V nEmbd nHeads hs blockSize nLayer) (xs : List ℕ) :
    Option (Fin xs.length → Fin V → ℚ) :=
  if hv : ∀ i : Fin xs.length, xs.get i < V then
    if hT : xs.length ≤ blockSize then
      some (logitsCore ops mode rate masks p hT (fun i => ⟨xs.get i, hv i⟩))
    else none
  else none

/-! ### Generation (src lines 180-195) -/

/-- One generation step up to sampling: idx_cond = idx[:, -block_size:],
forward pass with no targets, logits[:, -1, :], softmax over the
vocabulary.  Fails when the forward pass fails or the cropped context is
empty (indexing the last time step of an empty axis raises). -/
def nextProbs {V nEmbd nHeads hs blockSize nLayer : ℕ} (ops : RealOps)
    (mode : Mode) (rate : ℚ) (masks : ℕ → BlockMasks)
    (p : ModelP V nEmbd nHeads hs blockSize nLayer) (idx : List ℕ) :
    Option (Fin V → ℚ) :=
  match forwardRow ops mode rate masks p (idx.drop (idx.length - blockSize)) with
  | none => none
  | some logits =>
    if h : 0 < (idx.drop (idx.length - blockSize)).length then
      some (softmaxRow ops.exp (logits ⟨(idx.drop (idx.length - blockSize)).length - 1,
        by omega⟩))
    else none

/-- BigramLanguageModel.generate on one batch row: repeat max_new_tokens
times, appending the id drawn by torch.multinomial from the softmaxed
final-step probabilities.  The categorical sampler and the per-call dropout
masks are indexed by the step counter n, modelling the fresh randomness of
each pass. -/
def generateAux {V nEmbd nHeads hs blockSize nLayer : ℕ} (ops : RealOps)
    (mode : Mode) (rate : ℚ) (maskStream : ℕ → ℕ → BlockMasks)
    (p : ModelP V nEmbd nHeads hs blockSize nLayer)
    (samplers : ℕ → (Fin V → ℚ) → Fin V) :
    ℕ → ℕ → List ℕ → Option (List ℕ)
  | _, 0, idx => some idx
  | n, k + 1, idx =>
    match nextProbs ops mode rate (maskStream n) p idx with
    | none => none
    | some pr =>
      generateAux ops mode rate maskStream p samplers (n + 1) k
        (idx ++ [(samplers n pr).val])

/-- generate(idx, max_new_tokens) on one batch row. -/
def generate {V nEmbd nHeads hs blockSize nLayer : ℕ} (ops : RealOps)
    (mode : Mode) (rate : ℚ) (maskStream : ℕ → ℕ → BlockMasks)
    (p : ModelP V nEmbd nHeads hs blockSize nLayer)
    (samplers : ℕ → (Fin V → ℚ) → Fin V) (idx : List ℕ) (maxNewTokens : ℕ) :
    Option (List ℕ) :=
  generateAux ops mode rate maskStream p samplers 0 maxNewTokens idx

/-- Batched generate on a (B, T) seed: each row is extended independently,
with its own multinomial draws. -/
def generateBatch {B V nEmbd nHeads hs blockSize nLayer : ℕ} (ops : RealOps)
    (mode : Mode) (rate : ℚ) (maskStream : ℕ → ℕ → BlockMasks)
    (p : ModelP V nEmbd nHeads hs blockSize nLayer)
    (samplers : Fin B → ℕ → (Fin V → ℚ) → Fin V) (idxB : Fin B → List ℕ)
    (maxNewTokens : ℕ) : Fin B → Option (List ℕ) :=
  fun b => generate ops mode rate maskStream p (samplers b) (idxB b) maxNewTokens

/-! ### Auxiliary definitions for statements and concrete instantiations -/

/-- Two position-indexed families agree on positions 0..t. -/
def AgreeUpTo {T : ℕ} {α : Type} (t : ℕ) (x y : Fin T → α) : Prop :=
  ∀ i : Fin T, (i : ℕ) ≤ t → x i = y i

/-- Identity stand-ins for the backend primitives, for concrete instances. -/
def idOps : RealOps := ⟨id, id⟩

/-- Backend primitives whose exp is the constant 1 (a positive function),
for concrete instances of softmax facts. -/
def oneOps : RealOps := ⟨fun _ => 1, fun _ => 1⟩

/-- All-keep dropout masks, for concrete instances. -/
def trueMasks : BlockMasks := ⟨fun _ _ _ => true, fun _ _ => true, fun _ _ => true⟩

/-- All-zero head parameters, for concrete instances. -/
def zeroHead (nEmbd hs : ℕ) : HeadP nEmbd hs :=
  ⟨fun _ _ => 0, fun _ _ => 0, fun _ _ => 0⟩

/-- All-zero model parameters, for concrete instances. -/
def zeroModel (V nEmbd nHeads hs blockSize nLayer : ℕ) :
    ModelP V nEmbd nHeads hs blockSize nLayer where
  tokEmb := fun _ _ => 0
  posEmb := fun _ _ => 0
  blocks := fun _ =>
    { sa := { heads := fun _ => zeroHead nEmbd hs
              projW := fun _ _ => 0
              projB := fun _ => 0 }
      ffwd := { w1 := fun _ _ => 0, b1 := fun _ => 0, w2 := fun _ _ => 0, b2 := fun _ => 0 }
      ln1g := fun _ => 0
      ln1b := fun _ => 0
      ln2g := fun _ => 0
      ln2b := fun _ => 0 }
  lnfG := fun _ => 0
  lnfB := fun _ => 0
  lmW := fun _ _ => 0
  lmB := fun _ => 0

/-! ### Theorems -/

/-- C2 evidence: Head.forward evaluates the dropout of the attention
weights but discards the result (line 89 reads wei - self.dropout(wei) as a
bare expression statement instead of an assignment), so its output is the
aggregation with the raw masked-softmax weights and does not depend on the
mode, the dropout rate or the dropout mask at all. -/
theorem c2_head_dropout_discarded {T nEmbd hs : ℕ} (ops : RealOps)
    (mode mode' : Mode) (rate rate' : ℚ) (mask mask' : ℕ → ℕ → Bool)
    (hp : HeadP nEmbd hs) (x : Fin T → Fin nEmbd → ℚ) :
    headForward ops mode rate mask hp x = headForward ops mode' rate' mask' hp x ∧
    headForward ops mode rate mask hp x =
      fun i a => ∑ j, attnWeights ops.exp (headScores ops hp x) i j *
        linNoBias hp.value (x j) a :=
  ⟨rfl, rfl⟩

/-- Event log accumulated by the training loop: one evalReport and one
update for each processed iteration that passes the periodic guard, in
order. -/
theorem trainLoop_events_eq {P : Type} (eI : ℕ) (optStep : ℕ → P → P)
    (l : List ℕ) : ∀ s : LoopState P,
    (l.foldl (fun s i => trainIter eI optStep i s) s).events =
      s.events ++ (l.filter (fun i => i % eI = 0)).flatMap
        (fun i => [TrainEvent.evalReport i, TrainEvent.update i]) := by
  induction l with
  | nil => intro s; simp
  | cons a l ih =>
    intro s
    rw [List.foldl_cons, ih]
    unfold trainIter
    by_cases h : a % eI = 0
    · rw [if_pos h, List.filter_cons_of_pos (by simp [h])]
      simp [List.append_assoc]
    · rw [if_neg h, List.filter_cons_of_neg (by simp [h])]

/-- C3: over the fixed iteration count, a parameter update (zero_grad,
backward, optimizer step) happens on iteration i exactly when i is a
multiple of eval_interval, and exactly on the iterations that also produce
an evaluation report: the whole loop body sits inside the periodic guard,
so gradient steps share the evaluation cadence and occur on no other
iteration. -/
theorem c3_update_cadence {P : Type} (evalInterval : ℕ) (optStep : ℕ → P → P)
    (maxIters : ℕ) (p0 : P) (i : ℕ) :
    (TrainEvent.update i ∈ (trainLoop evalInterval optStep maxIters p0).events ↔
      (i < maxIters ∧ i % evalInterval = 0)) ∧
    (TrainEvent.update i ∈ (trainLoop evalInterval optStep maxIters p0).events ↔
      TrainEvent.evalReport i ∈ (trainLoop evalInterval optStep maxIters p0).events) := by
  unfold trainLoop
  rw [trainLoop_events_eq]
  simp [List.mem_flatMap, List.mem_filter, List.mem_range]

/-- C4 counterexample: when the loss of the very first evaluation batch
fails, estimate_loss exits with the model still in evaluation mode, so the
restore of training mode is conditional on success, not guaranteed on every
exit path. -/
theorem c4_counterexample :
    (estimateLoss (fun _ _ => Except.error ()) 1 Mode.train).2 = Mode.eval ∧
    Mode.eval ≠ Mode.train := by
  constructor
  · rfl
  · decide

/-- C4 (amended): estimate_loss switches the model to evaluation mode
before drawing its batches, and sets training mode again exactly on the
successful exit path; when any batch draw or forward pass fails, the
failure propagates and the model is left in evaluation mode. -/
theorem c4_mode_restore (lossOf : Split → ℕ → Except Unit ℚ) (evalIters : ℕ)
    (m0 : Mode) :
    (estimateLoss lossOf evalIters m0).2 =
      match (estimateLoss lossOf evalIters m0).1 with
      | Except.ok _ => Mode.train
      | Except.error _ => Mode.eval := by
  unfold estimateLoss
  rcases splitLosses (lossOf Split.train) evalIters with e | ltrain
  · rfl
  · rcases splitLosses (lossOf Split.val) evalIters with e | lval <;> rfl

/-- C6 counterexample: on a split of length 4 with context length 2 the
spec offset range 0 .. len - ctx inclusive contains the offset 2, but the
draw get_batch performs, torch.randint with exclusive bound len - ctx,
never produces it. -/
theorem c6_counterexample :
    2 ∈ specClaimedOffsets 2 [0, 0, 0, 0] ∧ 2 ∉ offsetSupport 2 [0, 0, 0, 0] := by
  decide

/-- C6 (amended): in every successful get_batch draw each row start offset
lies in 0 .. len(split) - context_length - 1 (the exclusive randint range),
every such offset is reachable, and target row Y is input row X shifted one
position right within the corpus: X[b][j] = data[ix_b + j] and
Y[b][j] = data[ix_b + j + 1]. -/
theorem c6_batch_shift {blockSize batchSize : ℕ} (data : List ℕ)
    (seeds : Fin batchSize → ℕ) (x y : Fin batchSize → Fin blockSize → ℕ)
    (h : getBatch blockSize batchSize data seeds = some (x, y)) :
    (∀ (b : Fin batchSize) (j : Fin blockSize),
      x b j = data.getD (seeds b % (data.length - blockSize) + (j : ℕ)) 0 ∧
      y b j = data.getD (seeds b % (data.length - blockSize) + (j : ℕ) + 1) 0) ∧
    (∀ b : Fin batchSize,
      seeds b % (data.length - blockSize) ∈ offsetSupport blockSize data) ∧
    (∀ v ∈ offsetSupport blockSize data,
      ∃ seed : ℕ, seed % (data.length - blockSize) = v) := by
  unfold getBatch at h
  by_cases hpos : 0 < data.length - blockSize
  · rw [if_pos hpos, Option.some_inj, Prod.mk.injEq] at h
    obtain ⟨hx, hy⟩ := h
    refine ⟨fun b j => ⟨?_, ?_⟩, fun b => ?_, fun v hv => ?_⟩
    · rw [← hx]
    · rw [← hy]
    · exact Finset.mem_range.2 (Nat.mod_lt _ hpos)
    · exact ⟨v, Nat.mod_eq_of_lt (Finset.mem_range.1 hv)⟩
  · rw [if_neg hpos] at h
    exact absurd h (by simp)

/-- C6 witness: a concrete successful draw on the split [5, 6, 7, 8] with
context length 2, batch size 1 and seed 3. -/
theorem c6_batch_shift_witness :
    (fun _ : Fin 1 => (3 : ℕ)) ⟨0, Nat.one_pos⟩ % ([5, 6, 7, 8].length - 2) ∈
      offsetSupport 2 [5, 6, 7, 8] :=
  (@c6_batch_shift 2 1 [5, 6, 7, 8] (fun _ => 3)
    (fun _ (j : Fin 2) => [5, 6, 7, 8].getD (3 % ([5, 6, 7, 8].length - 2) + (j : ℕ)) 0)
    (fun _ (j : Fin 2) => [5, 6, 7, 8].getD (3 % ([5, 6, 7, 8].length - 2) + (j : ℕ) + 1) 0)
    (by rfl)).2.1 ⟨0, Nat.one_pos⟩

/-- C10: get_batch succeeds exactly when the split is strictly longer than
the context length (torch.randint on an empty or negative range raises
instead of returning a shorter batch), and on success every index read by
an input window and by its shifted target window is strictly inside the
split. -/
theorem c10_getBatch_bounds {blockSize batchSize : ℕ} (data : List ℕ)
    (seeds : Fin batchSize → ℕ) :
    ((getBatch blockSize batchSize data seeds).isSome ↔ blockSize < data.length) ∧
    (blockSize < data.length →
      ∀ (b : Fin batchSize) (j : Fin blockSize),
        seeds b % (data.length - blockSize) + (j : ℕ) < data.length ∧
        seeds b % (data.length - blockSize) + (j : ℕ) + 1 < data.length) := by
  constructor
  · unfold getBatch
    by_cases hpos : 0 < data.length - blockSize
    · rw [if_pos hpos]
      simp only [Option.isSome_some, true_iff]
      omega
    · rw [if_neg hpos]
      simp only [Option.isSome_none, Bool.false_eq_true, false_iff]
      omega
  · intro hlt b j
    have hpos : 0 < data.length - blockSize := by omega
    have hmod : seeds b % (data.length - blockSize) < data.length - blockSize :=
      Nat.mod_lt _ hpos
    have hj := j.isLt
    omega

/-- C10 witness: the boundary behavior on the concrete split [1, 2, 3] with
context length 1. -/
theorem c10_getBatch_bounds_witness :
    ((1 : ℕ) < [1, 2, 3].length) ∧
    ((fun _ : Fin 1 => (0 : ℕ)) ⟨0, Nat.one_pos⟩ % ([1, 2, 3].length - 1) +
        ((⟨0, Nat.one_pos⟩ : Fin 1) : ℕ) + 1 < [1, 2, 3].length) :=
  ⟨by decide,
    ((@c10_getBatch_bounds 1 1 [1, 2, 3] (fun _ => 0)).2
      (by decide) ⟨0, Nat.one_pos⟩ ⟨0, Nat.one_pos⟩).2⟩

/-- C7: a forward pass on a (B, T) input with valid ids and T exactly
block_size succeeds and its logits have shape (B, T, vocab_size) (the type
of the returned tensor), while T = block_size + 1 makes the positional
embedding lookup raise before any logits exist, so forward returns none
rather than silently truncating. -/
theorem c7_boundary {B V nEmbd nHeads hs blockSize nLayer : ℕ} (ops : RealOps)
    (mode : Mode) (rate : ℚ) (masks : ℕ → BlockMasks)
    (p : ModelP V nEmbd nHeads hs blockSize nLayer)
    (idxOk : Fin B → Fin blockSize → ℕ) (hv : ∀ b i, idxOk b i < V)
    (idxBad : Fin B → Fin (blockSize + 1) → ℕ) :
    (forwardBT ops mode rate masks p idxOk).isSome ∧
    forwardBT ops mode rate masks p idxBad = none := by
  constructor
  · unfold forwardBT
    rw [dif_pos hv, dif_pos le_rfl]
    rfl
  · unfold forwardBT
    by_cases hv2 : ∀ b i, idxBad b i < V
    · rw [dif_pos hv2, dif_neg (by omega)]
    · rw [dif_neg hv2]

/-- C7 witness: the concrete boundary instance with block_size 1, vocab
size 1, and the all-zero model. -/
theorem c7_boundary_witness :
    (forwardBT idOps Mode.eval 0 (fun _ => trueMasks) (zeroModel 1 1 1 1 1 0)
        (fun _ _ => 0 : Fin 1 → Fin 1 → ℕ)).isSome ∧
    forwardBT idOps Mode.eval 0 (fun _ => trueMasks) (zeroModel 1 1 1 1 1 0)
        (fun _ _ => 0 : Fin 1 → Fin (1 + 1) → ℕ) = none :=
  c7_boundary idOps Mode.eval 0 (fun _ => trueMasks) (zeroModel 1 1 1 1 1 0)
    (fun _ _ => 0) (fun _ _ => Nat.one_pos) (fun _ _ => 0)

/-- Membership in the sorted vocabulary list is corpus membership. -/
theorem mem_chars {text : List Char} {c : Char} : c ∈ chars text ↔ c ∈ text := by
  simp [chars, Finset.mem_sort, List.mem_toFinset]

/-- encode on a string of corpus characters yields the list of sorted-order
ranks. -/
theorem encode_eq_map {text : List Char} : ∀ {s : List Char}, (∀ c ∈ s, c ∈ text) →
    encode text s = some (s.map fun c => (chars text).indexOf c) := by
  intro s
  induction s with
  | nil => intro _; rfl
  | cons a s ih =>
    intro h
    have ha : a ∈ chars text := mem_chars.2 (h a (List.mem_cons_self a s))
    have hrest := ih (fun c hc => h c (List.mem_cons_of_mem a hc))
    unfold encode at hrest ⊢
    rw [List.mapM_cons, hrest]
    simp [stoi, ha]

/-- decode undoes the rank map on corpus characters. -/
theorem decode_map_indexOf {text : List Char} : ∀ {s : List Char},
    (∀ c ∈ s, c ∈ text) →
    decode text (s.map fun c => (chars text).indexOf c) = some s := by
  intro s
  induction s with
  | nil => intro _; rfl
  | cons a s ih =>
    intro h
    have ha : a ∈ chars text := mem_chars.2 (h a (List.mem_cons_self a s))
    have hrest := ih (fun c hc => h c (List.mem_cons_of_mem a hc))
    unfold decode at hrest ⊢
    rw [List.map_cons, List.mapM_cons, hrest]
    simp [itos, List.getElem?_indexOf ha]

/-- C9: on any string of corpus characters decode inverts encode exactly;
encode gives each corpus character its rank in the sorted distinct
character list, a dense id below vocab_size, injectively. -/
theorem c9_roundtrip (text s : List Char) (hmem : ∀ c ∈ s, c ∈ text) :
    (∃ ids, encode text s = some ids ∧ decode text ids = some s ∧
      ∀ i ∈ ids, i < vocabSize text) ∧
    (∀ c d : Char, c ∈ text → d ∈ text → stoi text c = stoi text d → c = d) ∧
    List.Sorted (· ≤ ·) (chars text) ∧ (chars text).Nodup := by
  refine ⟨⟨s.map fun c => (chars text).indexOf c, encode_eq_map hmem,
    decode_map_indexOf hmem, ?_⟩, ?_, Finset.sort_sorted _ _, Finset.sort_nodup _ _⟩
  · intro i hi
    obtain ⟨c, hc, rfl⟩ := List.mem_map.1 hi
    exact List.indexOf_lt_length.2 (mem_chars.2 (hmem c hc))
  · intro c d hc hd hstoi
    have hc' : c ∈ chars text := mem_chars.2 hc
    have hd' : d ∈ chars text := mem_chars.2 hd
    rw [stoi, stoi, if_pos hc', if_pos hd', Option.some_inj] at hstoi
    exact (List.indexOf_inj hc' hd').1 hstoi

/-- C9 witness: the round trip on the two-character corpus holds at a
concrete string. -/
theorem c9_roundtrip_witness :
    List.Sorted (· ≤ ·) (chars ['b', 'a']) ∧ (chars ['b', 'a']).Nodup :=
  ⟨(c9_roundtrip ['b', 'a'] ['a', 'b', 'a'] (by decide)).2.2.1,
   (c9_roundtrip ['b', 'a'] ['a', 'b', 'a'] (by decide)).2.2.2⟩

/-- Closed form of one attention-weight numerator: the exp of the raw score
below or on the diagonal, 0 strictly above it. -/
theorem expv_maskedScores {T : ℕ} (e : ℚ → ℚ) (w : Fin T → Fin T → ℚ) (i j : Fin T) :
    expv e (maskedScores w i j) = if (j : ℕ) ≤ (i : ℕ) then e (w i j) else 0 := by
  unfold maskedScores
  split <;> rfl

/-- Above-diagonal attention weights vanish identically. -/
theorem attnWeights_masked {T : ℕ} (e : ℚ → ℚ) (w : Fin T → Fin T → ℚ)
    {i j : Fin T} (h : (i : ℕ) < (j : ℕ)) : attnWeights e w i j = 0 := by
  unfold attnWeights
  rw [expv_maskedScores, if_neg (by omega), zero_div]

/-- With a positive exp every masked-softmax row sums to 1. -/
theorem attnWeights_row_sum {T : ℕ} {e : ℚ → ℚ} (he : ∀ q : ℚ, 0 < e q)
    (w : Fin T → Fin T → ℚ) (i : Fin T) :
    ∑ j, attnWeights e w i j = 1 := by
  have hpos : 0 < ∑ k, expv e (maskedScores w i k) := by
    apply Finset.sum_pos'
    · intro k _
      rw [expv_maskedScores]
      split
      · exact le_of_lt (he _)
      · exact le_rfl
    · exact ⟨i, Finset.mem_univ i, by rw [expv_maskedScores, if_pos le_rfl]; exact he _⟩
  unfold attnWeights
  rw [← Finset.sum_div, div_self (ne_of_gt hpos)]

/-- C8: in a self-attention head on any input with T within the mask, each
row of the masked-softmax attention matrix is non-negative, sums to 1, and
is exactly 0 at every masked position (column index above the row index);
consequently the weighted aggregation Head.forward computes uses those
weights, so future positions contribute nothing. -/
theorem c8_attention_rows {T nEmbd hs blockSize : ℕ} (ops : RealOps)
    (hp : HeadP nEmbd hs) (x : Fin T → Fin nEmbd → ℚ) (hT : T ≤ blockSize)
    (hexp : ∀ q : ℚ, 0 < ops.exp q) (i : Fin T) :
    (∀ j, 0 ≤ attnWeights ops.exp (headScores ops hp x) i j) ∧
    (∑ j, attnWeights ops.exp (headScores ops hp x) i j = 1) ∧
    (∀ j : Fin T, (i : ℕ) < (j : ℕ) →
      attnWeights ops.exp (headScores ops hp x) i j = 0) ∧
    (∀ (mode : Mode) (rate : ℚ) (mask : ℕ → ℕ → Bool),
      headForward ops mode rate mask hp x i =
        fun a => ∑ j, attnWeights ops.exp (headScores ops hp x) i j *
          linNoBias hp.value (x j) a) := by
  refine ⟨fun j => ?_, attnWeights_row_sum hexp _ i, fun j hj =>
    attnWeights_masked _ _ hj, fun _ _ _ => rfl⟩
  unfold attnWeights
  apply div_nonneg
  · rw [expv_maskedScores]
    split
    · exact le_of_lt (hexp _)
    · exact le_rfl
  · apply Finset.sum_nonneg
    intro k _
    rw [expv_maskedScores]
    split
    · exact le_of_lt (hexp _)
    · exact le_rfl

/-- C8 witness: on a concrete two-position input with the constant-one exp
the masked entry at row 0, column 1 carries exactly zero weight. -/
theorem c8_attention_rows_witness :
    ((2 : ℕ) ≤ 2) ∧
    attnWeights oneOps.exp
      (headScores oneOps (zeroHead 1 1) (fun _ _ => (0 : ℚ)))
      (⟨0, by omega⟩ : Fin 2) (⟨1, by omega⟩ : Fin 2) = 0 :=
  ⟨le_rfl,
    (@c8_attention_rows 2 1 1 2 oneOps (zeroHead 1 1)
      (fun _ _ => 0) le_rfl (fun _ => one_pos) ⟨0, by omega⟩).2.2.1
      ⟨1, by omega⟩ Nat.zero_lt_one⟩

/-- Raw affinity scores depend only on the two positions involved. -/
theorem headScores_congr {T nEmbd hs : ℕ} (ops : RealOps) (hp : HeadP nEmbd hs)
    {x y : Fin T → Fin nEmbd → ℚ} {i j : Fin T} (hxi : x i = y i) (hxj : x j = y j) :
    headScores ops hp x i j = headScores ops hp y i j := by
  unfold headScores
  rw [hxi, hxj]

/-- A weight in row i depends only on the scores of row i at columns up to
i (the masked columns never enter the numerator or the denominator). -/
theorem attnWeights_congr_row {T : ℕ} (e : ℚ → ℚ) {w w' : Fin T → Fin T → ℚ}
    {i : Fin T} (h : ∀ k : Fin T, (k : ℕ) ≤ (i : ℕ) → w i k = w' i k) (j : Fin T) :
    attnWeights e w i j = attnWeights e w' i j := by
  unfold attnWeights
  have hnum : expv e (maskedScores w i j) = expv e (maskedScores w' i j) := by
    rw [expv_maskedScores, expv_maskedScores]
    by_cases hc : (j : ℕ) ≤ (i : ℕ)
    · rw [if_pos hc, if_pos hc, h j hc]
    · rw [if_neg hc, if_neg hc]
  have hden : (∑ k, expv e (maskedScores w i k)) =
      ∑ k, expv e (maskedScores w' i k) := by
    apply Finset.sum_congr rfl
    intro k _
    rw [expv_maskedScores, expv_maskedScores]
    by_cases hc : (k : ℕ) ≤ (i : ℕ)
    · rw [if_pos hc, if_pos hc, h k hc]
    · rw [if_neg hc, if_neg hc]
  rw [hnum, hden]

/-- Causality of one head: inputs that agree on positions 0..t give head
outputs that agree there; masked columns contribute zero weight, so later
positions never enter. -/
theorem headForward_agree {T nEmbd hs : ℕ} (ops : RealOps) (mode : Mode)
    (rate : ℚ) (mask : ℕ → ℕ → Bool) (hp : HeadP nEmbd hs) {t : ℕ}
    {x y : Fin T → Fin nEmbd → ℚ} (h : AgreeUpTo t x y) :
    AgreeUpTo t (headForward ops mode rate mask hp x)
      (headForward ops mode rate mask hp y) := by
  intro i hi
  show (fun a => ∑ j, attnWeights ops.exp (headScores ops hp x) i j *
      linNoBias hp.value (x j) a) =
    fun a => ∑ j, attnWeights ops.exp (headScores ops hp y) i j *
      linNoBias hp.value (y j) a
  funext a
  apply Finset.sum_congr rfl
  intro j _
  by_cases hj : (j : ℕ) ≤ (i : ℕ)
  · have hwei : attnWeights ops.exp (headScores ops hp x) i j =
        attnWeights ops.exp (headScores ops hp y) i j := by
      apply attnWeights_congr_row
      intro k hk
      exact headScores_congr ops hp (h i hi) (h k (le_trans hk hi))
    rw [hwei, h j (le_trans hj hi)]
  · rw [attnWeights_masked ops.exp (headScores ops hp x) (by omega),
      attnWeights_masked ops.exp (headScores ops hp y) (by omega), zero_mul, zero_mul]

/-- Dropout is position-wise: the output at position i depends only on the
input at position i. -/
theorem dropoutApply_congr_at {T n : ℕ} (mode : Mode) (rate : ℚ)
    (mask : ℕ → ℕ → Bool) {x y : Fin T → Fin n → ℚ} {i : Fin T} (h : x i = y i) :
    dropoutApply mode rate mask x i = dropoutApply mode rate mask y i := by
  cases mode with
  | train =>
    funext j
    show (if mask i j then x i j / (1 - rate) else 0) =
      if mask i j then y i j / (1 - rate) else 0
    rw [h]
  | eval => exact h

/-- Concatenation is position-wise: the concatenated features at position i
depend only on the head outputs at position i. -/
theorem concatHeads_congr_at {T nHeads hs : ℕ}
    {o1 o2 : Fin nHeads → Fin T → Fin hs → ℚ} {i : Fin T}
    (h : ∀ hd, o1 hd i = o2 hd i) : concatHeads o1 i = concatHeads o2 i := by
  funext j
  simp only [concatHeads]
  exact congrFun (h _) _

/-- Causality of multi-head attention: concatenation and projection are
position-wise on top of the heads. -/
theorem mhaForward_agree {T nEmbd nHeads hs : ℕ} (ops : RealOps) (mode : Mode)
    (rate : ℚ) (headMask : ℕ → ℕ → ℕ → Bool) (projMask : ℕ → ℕ → Bool)
    (mp : MHAP nEmbd nHeads hs) {t : ℕ} {x y : Fin T → Fin nEmbd → ℚ}
    (h : AgreeUpTo t x y) :
    AgreeUpTo t (mhaForward ops mode rate headMask projMask mp x)
      (mhaForward ops mode rate headMask projMask mp y) := by
  intro i hi
  unfold mhaForward
  apply dropoutApply_congr_at
  have hcat : concatHeads
      (fun hd => headForward ops mode rate (headMask hd) (mp.heads hd) x) i =
      concatHeads
      (fun hd => headForward ops mode rate (headMask hd) (mp.heads hd) y) i :=
    concatHeads_congr_at (fun hd =>
      headForward_agree ops mode rate (headMask hd) (mp.heads hd) h i hi)
  show linWithBias mp.projW mp.projB (concatHeads
      (fun hd => headForward ops mode rate (headMask hd) (mp.heads hd) x) i) =
    linWithBias mp.projW mp.projB (concatHeads
      (fun hd => headForward ops mode rate (headMask hd) (mp.heads hd) y) i)
  rw [hcat]

/-- Causality (indeed position-wise locality) of the feed-forward block. -/
theorem ffForward_agree {T nEmbd : ℕ} (mode : Mode) (rate : ℚ)
    (mask : ℕ → ℕ → Bool) (fp : FFP nEmbd) {t : ℕ} {x y : Fin T → Fin nEmbd → ℚ}
    (h : AgreeUpTo t x y) :
    AgreeUpTo t (ffForward mode rate mask fp x) (ffForward mode rate mask fp y) := by
  intro i hi
  unfold ffForward
  apply dropoutApply_congr_at
  show linWithBias fp.w2 fp.b2
      (fun hd => max 0 (linWithBias fp.w1 fp.b1 (x i) hd)) = _
  rw [h i hi]

/-- Causality of one Transformer block. -/
theorem blockForward_agree {T nEmbd nHeads hs : ℕ} (ops : RealOps) (mode : Mode)
    (rate : ℚ) (bm : BlockMasks) (bp : BlockP nEmbd nHeads hs) {t : ℕ}
    {x y : Fin T → Fin nEmbd → ℚ} (h : AgreeUpTo t x y) :
    AgreeUpTo t (blockForward ops mode rate bm bp x)
      (blockForward ops mode rate bm bp y) := by
  have hln1 : AgreeUpTo t (fun j => layerNorm ops bp.ln1g bp.ln1b (x j))
      (fun j => layerNorm ops bp.ln1g bp.ln1b (y j)) := by
    intro k hk
    show layerNorm ops bp.ln1g bp.ln1b (x k) = layerNorm ops bp.ln1g bp.ln1b (y k)
    rw [h k hk]
  have hsa := mhaForward_agree ops mode rate bm.headM bm.projM bp.sa hln1
  have hx1 : ∀ k : Fin T, (k : ℕ) ≤ t →
      x k + mhaForward ops mode rate bm.headM bm.projM bp.sa
        (fun j => layerNorm ops bp.ln1g bp.ln1b (x j)) k =
      y k + mhaForward ops mode rate bm.headM bm.projM bp.sa
        (fun j => layerNorm ops bp.ln1g bp.ln1b (y j)) k := by
    intro k hk
    rw [h k hk, hsa k hk]
  have hln2 : AgreeUpTo t
      (fun j => layerNorm ops bp.ln2g bp.ln2b (x j +
        mhaForward ops mode rate bm.headM bm.projM bp.sa
          (fun j2 => layerNorm ops bp.ln1g bp.ln1b (x j2)) j))
      (fun j => layerNorm ops bp.ln2g bp.ln2b (y j +
        mhaForward ops mode rate bm.headM bm.projM bp.sa
          (fun j2 => layerNorm ops bp.ln1g bp.ln1b (y j2)) j)) := by
    intro k hk
    show layerNorm ops bp.ln2g bp.ln2b (x k +
        mhaForward ops mode rate bm.headM bm.projM bp.sa
          (fun j2 => layerNorm ops bp.ln1g bp.ln1b (x j2)) k) =
      layerNorm ops bp.ln2g bp.ln2b (y k +
        mhaForward ops mode rate bm.headM bm.projM bp.sa
          (fun j2 => layerNorm ops bp.ln1g bp.ln1b (y j2)) k)
    rw [hx1 k hk]
  have hff := ffForward_agree mode rate bm.ffM bp.ffwd hln2
  intro i hi
  show (x i + mhaForward ops mode rate bm.headM bm.projM bp.sa
      (fun j => layerNorm ops bp.ln1g bp.ln1b (x j)) i) +
      ffForward mode rate bm.ffM bp.ffwd
        (fun j => layerNorm ops bp.ln2g bp.ln2b (x j +
          mhaForward ops mode rate bm.headM bm.projM bp.sa
            (fun j2 => layerNorm ops bp.ln1g bp.ln1b (x j2)) j)) i =
    (y i + mhaForward ops mode rate bm.headM bm.projM bp.sa
      (fun j => layerNorm ops bp.ln1g bp.ln1b (y j)) i) +
      ffForward mode rate bm.ffM bp.ffwd
        (fun j => layerNorm ops bp.ln2g bp.ln2b (y j +
          mhaForward ops mode rate bm.headM bm.projM bp.sa
            (fun j2 => layerNorm ops bp.ln1g bp.ln1b (y j2)) j)) i
  rw [hx1 i hi, hff i hi]

/-- Causality of a whole stack of blocks applied by foldl. -/
theorem foldlBlocks_agree {T nEmbd nHeads hs nLayer : ℕ} (ops : RealOps)
    (mode : Mode) (rate : ℚ) (masks : ℕ → BlockMasks)
    (bs : Fin nLayer → BlockP nEmbd nHeads hs) (l : List (Fin nLayer)) {t : ℕ} :
    ∀ {x y : Fin T → Fin nEmbd → ℚ}, AgreeUpTo t x y →
    AgreeUpTo t
      (l.foldl (fun acc lb => blockForward ops mode rate (masks lb.val) (bs lb) acc) x)
      (l.foldl (fun acc lb => blockForward ops mode rate (masks lb.val) (bs lb) acc) y) := by
  induction l with
  | nil => intro x y h; exact h
  | cons a l ih =>
    intro x y h
    rw [List.foldl_cons, List.foldl_cons]
    exact ih (blockForward_agree ops mode rate (masks a.val) (bs a) h)

/-- Causality of the full logits computation on one row. -/
theorem logitsCore_agree {V nEmbd nHeads hs blockSize nLayer T : ℕ} (ops : RealOps)
    (mode : Mode) (rate : ℚ) (masks : ℕ → BlockMasks)
    (p : ModelP V nEmbd nHeads hs blockSize nLayer) (hT : T ≤ blockSize) {t : ℕ}
    {idx1 idx2 : Fin T → Fin V} (h : AgreeUpTo t idx1 idx2) :
    AgreeUpTo t (logitsCore ops mode rate masks p hT idx1)
      (logitsCore ops mode rate masks p hT idx2) := by
  have hx0 : AgreeUpTo t
      (fun i : Fin T => p.tokEmb (idx1 i) +
        p.posEmb ⟨(i : ℕ), lt_of_lt_of_le i.isLt hT⟩)
      (fun i : Fin T => p.tokEmb (idx2 i) +
        p.posEmb ⟨(i : ℕ), lt_of_lt_of_le i.isLt hT⟩) := by
    intro k hk
    show p.tokEmb (idx1 k) + p.posEmb ⟨(k : ℕ), lt_of_lt_of_le k.isLt hT⟩ =
      p.tokEmb (idx2 k) + p.posEmb ⟨(k : ℕ), lt_of_lt_of_le k.isLt hT⟩
    rw [h k hk]
  have hfold := foldlBlocks_agree ops mode rate masks p.blocks
    (List.finRange nLayer) hx0
  intro i hi
  show linWithBias p.lmW p.lmB (layerNorm ops p.lnfG p.lnfB
      ((List.finRange nLayer).foldl
        (fun acc lb => blockForward ops mode rate (masks lb.val) (p.blocks lb) acc)
        (fun i : Fin T => p.tokEmb (idx1 i) +
          p.posEmb ⟨(i : ℕ), lt_of_lt_of_le i.isLt hT⟩) i)) =
    linWithBias p.lmW p.lmB (layerNorm ops p.lnfG p.lnfB
      ((List.finRange nLayer).foldl
        (fun acc lb => blockForward ops mode rate (masks lb.val) (p.blocks lb) acc)
        (fun i : Fin T => p.tokEmb (idx2 i) +
          p.posEmb ⟨(i : ℕ), lt_of_lt_of_le i.isLt hT⟩) i))
  rw [hfold i hi]

/-- C1: on (B, T) inputs within the context bound that agree on positions
0..t of every row, the evaluation-mode forward pass yields identical logits
at position t (indeed at every position up to t) in every row; the same
causality statement holds for each individual attention head and for each
transformer block. -/
theorem c1_causality {B V nEmbd nHeads hs blockSize nLayer T : ℕ} (ops : RealOps)
    (rate : ℚ) (masks : ℕ → BlockMasks)
    (p : ModelP V nEmbd nHeads hs blockSize nLayer) (t : ℕ) (hT : T ≤ blockSize)
    (idx1 idx2 : Fin B → Fin T → Fin V)
    (hagree : ∀ b, AgreeUpTo t (idx1 b) (idx2 b)) :
    (∀ (mask : ℕ → ℕ → Bool) (hp : HeadP nEmbd hs) (x y : Fin T → Fin nEmbd → ℚ),
      AgreeUpTo t x y →
      AgreeUpTo t (headForward ops Mode.eval rate mask hp x)
        (headForward ops Mode.eval rate mask hp y)) ∧
    (∀ (bm : BlockMasks) (bp : BlockP nEmbd nHeads hs) (x y : Fin T → Fin nEmbd → ℚ),
      AgreeUpTo t x y →
      AgreeUpTo t (blockForward ops Mode.eval rate bm bp x)
        (blockForward ops Mode.eval rate bm bp y)) ∧
    (∀ (b : Fin B) (i : Fin T), (i : ℕ) ≤ t →
      logitsBatch ops Mode.eval rate masks p hT idx1 b i =
        logitsBatch ops Mode.eval rate masks p hT idx2 b i) :=
  ⟨fun mask hp _ _ h => headForward_agree ops Mode.eval rate mask hp h,
   fun bm bp _ _ h => blockForward_agree ops Mode.eval rate bm bp h,
   fun b i hi => logitsCore_agree ops Mode.eval rate masks p hT (hagree b) i hi⟩

/-- C1 witness: a concrete one-row instance with T = 2 and t = 0 whose two
inputs share position 0 and differ at position 1. -/
theorem c1_causality_witness :
    ((2 : ℕ) ≤ 2) ∧
    logitsBatch idOps Mode.eval 0 (fun _ => trueMasks) (zeroModel 2 1 1 1 2 1)
        (le_refl 2) (fun _ => ![0, 0]) ⟨0, Nat.one_pos⟩ ⟨0, by omega⟩ =
      logitsBatch idOps Mode.eval 0 (fun _ => trueMasks) (zeroModel 2 1 1 1 2 1)
        (le_refl 2) (fun _ => ![0, 1]) ⟨0, Nat.one_pos⟩ ⟨0, by omega⟩ :=
  ⟨le_rfl,
    (c1_causality idOps 0 (fun _ => trueMasks) (zeroModel 2 1 1 1 2 1) 0
      (le_refl 2) (fun _ => ![0, 0]) (fun _ => ![0, 1]) (by simp only [AgreeUpTo]; decide)).2.2
      ⟨0, Nat.one_pos⟩ ⟨0, by omega⟩ (le_refl 0)⟩

/-- One generation step always produces a distribution when the running
sequence is non-empty, the context window is positive and every id is in
range: the cropped context then meets every forward-pass precondition. -/
theorem nextProbs_some {V nEmbd nHeads hs blockSize nLayer : ℕ} (ops : RealOps)
    (mode : Mode) (rate : ℚ) (masks : ℕ → BlockMasks)
    (p : ModelP V nEmbd nHeads hs blockSize nLayer) (idx : List ℕ)
    (hbs : 0 < blockSize) (hlen : 0 < idx.length) (hv : ∀ a ∈ idx, a < V) :
    ∃ pr, nextProbs ops mode rate masks p idx = some pr := by
  have hle : (idx.drop (idx.length - blockSize)).length ≤ blockSize := by
    rw [List.length_drop]; omega
  have hpos : 0 < (idx.drop (idx.length - blockSize)).length := by
    rw [List.length_drop]; omega
  have hv' : ∀ i : Fin (idx.drop (idx.length - blockSize)).length,
      (idx.drop (idx.length - blockSize)).get i < V :=
    fun i => hv _ (List.mem_of_mem_drop (List.get_mem _ i.1 i.2))
  have hfwd : forwardRow ops mode rate masks p (idx.drop (idx.length - blockSize)) =
      some (logitsCore ops mode rate masks p hle
        (fun i => ⟨(idx.drop (idx.length - blockSize)).get i, hv' i⟩)) := by
    unfold forwardRow
    rw [dif_pos hv', dif_pos hle]
  unfold nextProbs
  simp only [hfwd]
  rw [dif_pos hpos]
  exact ⟨_, rfl⟩

/-- Full specification of the generation loop, generalized over the step
counter: it always succeeds, appends exactly k ids, preserves the seed as
the first entries, keeps every id either from the seed or in range, and
each appended id is the sampled draw of its step from the distribution
computed on the sequence generated so far. -/
theorem generateAux_spec {V nEmbd nHeads hs blockSize nLayer : ℕ} (ops : RealOps)
    (mode : Mode) (rate : ℚ) (maskStream : ℕ → ℕ → BlockMasks)
    (p : ModelP V nEmbd nHeads hs blockSize nLayer)
    (samplers : ℕ → (Fin V → ℚ) → Fin V) (hbs : 0 < blockSize) :
    ∀ (k n : ℕ) (idx : List ℕ), 0 < idx.length → (∀ a ∈ idx, a < V) →
    ∃ out, generateAux ops mode rate maskStream p samplers n k idx = some out ∧
      out.length = idx.length + k ∧
      out.take idx.length = idx ∧
      (∀ a ∈ out, a ∈ idx ∨ a < V) ∧
      ∀ j, j < k →
        ∃ pr, nextProbs ops mode rate (maskStream (n + j)) p
            (out.take (idx.length + j)) = some pr ∧
          out.get? (idx.length + j) = some (samplers (n + j) pr).val := by
  intro k
  induction k with
  | zero =>
    intro n idx hlen hv
    exact ⟨idx, rfl, by omega, List.take_length idx, fun a ha => Or.inl ha,
      fun j hj => absurd hj (by omega)⟩
  | succ k ih =>
    intro n idx hlen hv
    obtain ⟨pr, hpr⟩ := nextProbs_some ops mode rate (maskStream n) p idx hbs hlen hv
    have hlen1 : (idx ++ [(samplers n pr).val]).length = idx.length + 1 := by simp
    have hlenpos : 0 < (idx ++ [(samplers n pr).val]).length := by simp
    have hvalid1 : ∀ a ∈ idx ++ [(samplers n pr).val], a < V := by
      intro a ha
      rcases List.mem_append.1 ha with ha | ha
      · exact hv a ha
      · rcases List.mem_singleton.1 ha with rfl
        exact (samplers n pr).isLt
    obtain ⟨out, hgen, hlen2, htake, hvalid2, hchar⟩ :=
      ih (n + 1) (idx ++ [(samplers n pr).val]) hlenpos hvalid1
    have hstep : generateAux ops mode rate maskStream p samplers n (k + 1) idx =
        some out := by
      unfold generateAux
      rw [hpr]
      exact hgen
    have htakeidx : out.take idx.length = idx := by
      have h1 : (out.take (idx ++ [(samplers n pr).val]).length).take idx.length =
          out.take idx.length := by
        rw [List.take_take]
        congr 1
        rw [hlen1]
        omega
      rw [← h1, htake]
      exact List.take_left' rfl
    have hgat : out.get? idx.length = some (samplers n pr).val := by
      have h2 := List.get?_take (l := out) (n := (idx ++ [(samplers n pr).val]).length)
        (m := idx.length) (by rw [hlen1]; omega)
      rw [htake] at h2
      rw [← h2]
      exact List.get?_concat_length idx (samplers n pr).val
    refine ⟨out, hstep, by rw [hlen1] at hlen2; omega, htakeidx, ?_, ?_⟩
    · intro a ha
      rcases hvalid2 a ha with ha2 | ha2
      · rcases List.mem_append.1 ha2 with ha3 | ha3
        · exact Or.inl ha3
        · rcases List.mem_singleton.1 ha3 with rfl
          exact Or.inr (samplers n pr).isLt
      · exact Or.inr ha2
    · intro j hj
      match j, hj with
      | 0, _ =>
        refine ⟨pr, ?_, ?_⟩
        · simpa only [Nat.add_zero, htakeidx] using hpr
        · simpa only [Nat.add_zero] using hgat
      | j' + 1, hj' =>
        obtain ⟨pr', hnp', hg'⟩ := hchar j' (by omega)
        have e1 : (idx ++ [(samplers n pr).val]).length + j' =
            idx.length + (j' + 1) := by
          rw [hlen1]; omega
        have e2 : n + 1 + j' = n + (j' + 1) := by omega
        rw [e1, e2] at hnp' hg'
        exact ⟨pr', hnp', hg'⟩

/-- C5: generate on one seed row of length T with valid ids returns exactly
T + k ids whose first T entries are the seed unchanged; each appended id is
the categorical draw of its step from the softmax of the final-position
logits of the forward pass on the last block_size ids of the sequence so
far (nextProbs), and in particular is a valid id below vocab_size.  Batch
rows are extended independently. -/
theorem c5_generate {B V nEmbd nHeads hs blockSize nLayer : ℕ} (ops : RealOps)
    (mode : Mode) (rate : ℚ) (maskStream : ℕ → ℕ → BlockMasks)
    (p : ModelP V nEmbd nHeads hs blockSize nLayer)
    (samplers : Fin B → ℕ → (Fin V → ℚ) → Fin V) (idxB : Fin B → List ℕ)
    (k : ℕ) (b : Fin B) (hbs : 0 < blockSize) (hlen : 0 < (idxB b).length)
    (hv : ∀ a ∈ idxB b, a < V) :
    ∃ out, generateBatch ops mode rate maskStream p samplers idxB k b = some out ∧
      out.length = (idxB b).length + k ∧
      out.take (idxB b).length = idxB b ∧
      ∀ j, j < k → ∃ pr,
        nextProbs ops mode rate (maskStream j) p
          (out.take ((idxB b).length + j)) = some pr ∧
        out.get? ((idxB b).length + j) = some (samplers b j pr).val ∧
        (samplers b j pr).val < V := by
  obtain ⟨out, hgen, hl, ht, -, hchar⟩ :=
    generateAux_spec ops mode rate maskStream p (samplers b) hbs k 0 (idxB b) hlen hv
  refine ⟨out, hgen, hl, ht, fun j hj => ?_⟩
  obtain ⟨pr, hnp, hg⟩ := hchar j hj
  rw [Nat.zero_add] at hnp hg
  exact ⟨pr, hnp, hg, (samplers b j pr).isLt⟩

/-- C5 witness: one generation step on the singleton seed in the one-token
vocabulary succeeds. -/
theorem c5_generate_witness :
    (generateBatch idOps Mode.eval 0 (fun _ _ => trueMasks) (zeroModel 1 1 1 1 1 0)
      (fun _ _ _ => ⟨0, Nat.one_pos⟩) (fun _ : Fin 1 => [0]) 1
      ⟨0, Nat.one_pos⟩).isSome := by
  obtain ⟨out, hgen, -⟩ := c5_generate idOps Mode.eval 0 (fun _ _ => trueMasks)
    (zeroModel 1 1 1 1 1 0) (fun _ _ _ => ⟨0, Nat.one_pos⟩) (fun _ => [0]) 1
    ⟨0, Nat.one_pos⟩ Nat.one_pos (by decide) (by decide)
  rw [hgen]
  rfl

end GPT
